import Mathlib

/-!
Verification development for `prconflict` (cmd/prconflict/main.go), a tool that
injects Git-conflict-style annotation blocks for unresolved pull-request review
threads into a working copy.

The definitions below are a shallow embedding of the Go source:
* data model: `commentInfo`, `lineThread`, `reviewComment` (the REST view of a
  review comment, with nullable path/line modelled as `Option`);
* helpers: `sanitize`, `nonEmpty`, `splitRepo`-independent pieces are omitted
  as the claims do not touch them;
* the Comment Aggregator loop of `main` (lines 126-148) as `fileThreads`;
* the per-file sorting in `main` (lines 156-164) as `sortComments` /
  `sortThreadsDesc`;
* the Block Injector `injectThreads` / `buildBlock` (lines 242-288), with
  `bufio.Scanner` line splitting modelled by `scanLines` (ScanLines semantics:
  split on '\n', drop one trailing '\r' per line, no final empty token;
  lines are assumed to fit in the scanner's token-size limit).

Go's `sort.Slice` guarantees only that the result is ordered by the supplied
comparator (it is not documented to be stable); it is modelled here by an
insertion sort using the same comparator.  For the thread list the keys
(line numbers) are distinct, so every comparator-ordered permutation is equal
and the model is exact.
-/

namespace Prconflict

/-- Calendar-field model of `time.Time` (wall clock, second granularity). -/
structure DateTime where
  year : Nat
  month : Nat
  day : Nat
  hour : Nat
  minute : Nat
  second : Nat
deriving DecidableEq

/-- Model of `time.Time.Before`: lexicographic comparison of the calendar fields. -/
def DateTime.before (a b : DateTime) : Bool :=
  if a.year ≠ b.year then decide (a.year < b.year)
  else if a.month ≠ b.month then decide (a.month < b.month)
  else if a.day ≠ b.day then decide (a.day < b.day)
  else if a.hour ≠ b.hour then decide (a.hour < b.hour)
  else if a.minute ≠ b.minute then decide (a.minute < b.minute)
  else decide (a.second < b.second)

/-- Zero-pad to two digits, as Go's reference-layout components `01`/`02`/`15`/`04` do. -/
def pad2 (n : Nat) : String := if n < 10 then "0" ++ toString n else toString n

/-- Zero-pad to four digits, as Go's reference-layout component `2006` does. -/
def pad4 (n : Nat) : String :=
  if n < 10 then "000" ++ toString n
  else if n < 100 then "00" ++ toString n
  else if n < 1000 then "0" ++ toString n
  else toString n

/-- Rendering of `created.Format("2006-01-02 15:04")`. -/
def DateTime.format (t : DateTime) : String :=
  pad4 t.year ++ "-" ++ pad2 t.month ++ "-" ++ pad2 t.day ++ " "
    ++ pad2 t.hour ++ ":" ++ pad2 t.minute

/-- Structure `commentInfo`: minimal data kept for a review comment. -/
structure commentInfo where
  id : Int
  user : String
  body : String
  created : DateTime
deriving DecidableEq

/-- Structure `lineThread`: one conversation thread anchored to one line. -/
structure lineThread where
  line : Int
  comments : List commentInfo
deriving DecidableEq

/-- The REST view of a review comment (`*github.PullRequestComment`), with the
nullable `Path` and `Line` pointers modelled as `Option`.  `GetLogin`/`GetBody`
yield `""` when the underlying field is absent, so those are plain strings. -/
structure reviewComment where
  id : Int
  userLogin : String
  body : String
  createdAt : DateTime
  path : Option String
  line : Option Int
deriving DecidableEq

/-! ### Sanitization helpers (`sanitize`, `nonEmpty`) -/

/-- The character class trimmed by Go's `strings.TrimSpace` (`unicode.IsSpace`),
restricted to the Latin-1 range. -/
def goIsSpace (c : Char) : Bool :=
  c == ' ' || c == '\t' || c == '\n' || c == '\x0b' || c == '\x0c' || c == '\r'
    || c == '\x85' || c == '\xa0'

/-- One step of `strings.NewReplacer("\n", " ", "\r", " ", "*", "", "/", "")`:
the image of a single character. -/
def replCommentChar (c : Char) : List Char :=
  if c == '\n' || c == '\r' then [' ']
  else if c == '*' || c == '/' then []
  else [c]

/-- Model of `strings.TrimSpace` on a character list: drop `goIsSpace` characters from
both ends. -/
def trimSpaceList (l : List Char) : List Char :=
  ((l.dropWhile goIsSpace).reverse.dropWhile goIsSpace).reverse

/-- Function `sanitize` (main.go:299-302): apply the replacer, then `strings.TrimSpace`. -/
def sanitize (s : String) : String :=
  String.mk (trimSpaceList ((s.data.map replCommentChar).flatten))

/-- Function `nonEmpty` (main.go:304-309). -/
def nonEmpty (v : String) : String := if v = "" then "unknown" else v

/-- The `commentInfo` literal built in the aggregation loop (main.go:142-147).
Note that `nonEmpty` is applied to the body as well as to the login. -/
def toInfo (c : reviewComment) : commentInfo :=
  { id := c.id
    user := nonEmpty c.userLogin
    body := nonEmpty c.body
    created := c.createdAt }

/-! ### Comment Aggregator (`main`, lines 126-148)

The Go map-of-maps `map[string]map[int]*lineThread` is modelled extensionally
as an association list keyed by `(path, line)`; `addComment` is the effect of
`fileThreads[path][ln].comments = append(...)` (creating the entry on first
encounter), and `lookupThread` is map lookup. -/

/-- Append a comment to the bucket for `k`, creating the bucket if absent. -/
def addComment : List ((String × Int) × List commentInfo) → (String × Int) →
    commentInfo → List ((String × Int) × List commentInfo)
  | [], k, ci => [(k, [ci])]
  | (j, cs) :: rest, k, ci =>
    if j = k then (j, cs ++ [ci]) :: rest
    else (j, cs) :: addComment rest k ci

/-- Map lookup on the association-list model. -/
def lookupThread : List ((String × Int) × List commentInfo) → (String × Int) →
    Option (List commentInfo)
  | [], _ => none
  | (j, cs) :: rest, k => if j = k then some cs else lookupThread rest k

/-- One iteration of the aggregation loop: skip a comment whose `Path` or
`Line` pointer is nil, skip a comment whose id is not in the unresolved set,
otherwise append its `commentInfo` to the `(path, line)` bucket. -/
def aggStep (u : List Int) (m : List ((String × Int) × List commentInfo))
    (c : reviewComment) : List ((String × Int) × List commentInfo) :=
  match c.path, c.line with
  | some p, some l => if c.id ∈ u then addComment m (p, l) (toInfo c) else m
  | _, _ => m

/-- The whole aggregation loop of `main` (lines 126-148). -/
def fileThreads (comments : List reviewComment) (u : List Int) :
    List ((String × Int) × List commentInfo) :=
  comments.foldl (aggStep u) []

/-! ### Per-file sorting in `main` (lines 156-164) -/

/-- Insert a comment into a list ordered by `created.before`. -/
def insertComment (c : commentInfo) : List commentInfo → List commentInfo
  | [] => [c]
  | d :: rest =>
    if c.created.before d.created then c :: d :: rest
    else d :: insertComment c rest

/-- Model of `sort.Slice(t.comments, by created.Before)` (main.go:159-161), modelled as
insertion sort with the same comparator. -/
def sortComments : List commentInfo → List commentInfo
  | [] => []
  | c :: rest => insertComment c (sortComments rest)

/-- Insert a thread into a list ordered by descending line. -/
def insertThread (t : lineThread) : List lineThread → List lineThread
  | [] => [t]
  | v :: rest =>
    if v.line < t.line then t :: v :: rest
    else v :: insertThread t rest

/-- Model of `sort.Slice(threads, by line descending)` (main.go:164), modelled as
insertion sort with the same comparator; for distinct lines the ordered
arrangement is unique, so this is exactly the Go result. -/
def sortThreadsDesc : List lineThread → List lineThread
  | [] => []
  | t :: rest => insertThread t (sortThreadsDesc rest)

/-- The per-file thread list `main` hands to `injectThreads` (lines 156-164):
collect this file's buckets, sort each bucket's comments chronologically, then
sort the threads by target line descending. -/
def threadsFor (m : List ((String × Int) × List commentInfo)) (path : String) :
    List lineThread :=
  sortThreadsDesc ((m.filter (fun e => e.1.1 == path)).map
    (fun e => { line := e.1.2, comments := sortComments e.2 }))

/-! ### Block Injector (`injectThreads` / `buildBlock`, lines 242-288) -/

/-- The trailing end-marker line (main.go:263). -/
def trailer : String := ">>>>>>> END REVIEW"

/-- Function `buildBlock` (main.go:279-288): opening marker with the comment count,
one formatted line per comment in stored order, then the `=======` separator. -/
def buildBlock (cs : List commentInfo) : List String :=
  ("<<<<<<< REVIEW THREAD (" ++ toString cs.length ++ ")")
    :: (cs.map (fun c => c.created.format ++ " " ++ c.user ++ ": " ++ sanitize c.body)
      ++ ["======="])

/-- The body of the per-thread loop (main.go:256-266): compute the zero-based
index; if it is out of the current bounds skip the thread, otherwise splice
`block ++ [original line, trailer]` in place of the original line. -/
def injectStep (src : List String) (th : lineThread) : List String :=
  let idx := th.line - 1
  if idx < 0 ∨ (src.length : Int) ≤ idx then src
  else
    src.take idx.toNat ++ buildBlock th.comments
      ++ [src.getD idx.toNat "", trailer] ++ src.drop (idx.toNat + 1)

/-- The per-thread loop over the (descending-sorted) thread list. -/
def injectLoop (src : List String) : List lineThread → List String
  | [] => src
  | th :: rest => injectLoop (injectStep src th) rest

/-- Split a character list at every newline; the result always has one part
more than the number of newlines. -/
def splitOnNl : List Char → List (List Char)
  | [] => [[]]
  | c :: rest =>
    if c = '\n' then [] :: splitOnNl rest
    else
      match splitOnNl rest with
      | [] => [[c]]
      | p :: ps => (c :: p) :: ps

/-- Helper `dropCR` of `bufio.ScanLines`: drop one trailing carriage return. -/
def dropCR (p : List Char) : List Char :=
  if p.getLast? = some '\r' then p.dropLast else p

/-- Model of `bufio.Scanner` with the default `ScanLines` split function
(main.go:247-254): tokens are the newline-separated segments with one trailing
`'\r'` stripped each, and a final empty segment yields no token. -/
def scanLines (s : String) : List String :=
  let ps := splitOnNl s.data
  let qs := if ps.getLast? = some [] then ps.dropLast else ps
  qs.map (fun p => String.mk (dropCR p))

/-- Value of `strings.Join(src, "\n") + "\n"` (main.go:276): the byte content written
back to the file. -/
def unlines (ls : List String) : String := String.intercalate "\n" ls ++ "\n"

/-- Function `injectThreads` (main.go:242-277) after a successful read of `content`:
returns the final line sequence together with the content written to disk
(`none` in dry-run mode, where the function prints and returns). -/
def injectThreads (content : String) (threads : List lineThread) (dry : Bool) :
    List String × Option String :=
  let src := injectLoop (scanLines content) threads
  (src, if dry then none else some (unlines src))

/-- Model of `fmt.Printf("%6d", n)`: right-align in (at least) six columns. -/
def pad6 (n : Nat) : String :=
  String.mk (List.replicate (6 - (toString n).length) ' ') ++ toString n

/-- The dry-run rendering (main.go:270-272): each resulting line prefixed by
its 1-based, 6-column right-aligned line number. -/
def renderDry (src : List String) : List String :=
  (List.range src.length).map (fun i => pad6 (i + 1) ++ " " ++ src.getD i "")

/-! ### Helper lemmas -/

theorem head?_dropWhile_not {α : Type} (p : α → Bool) (l : List α) (c : α)
    (h : (l.dropWhile p).head? = some c) : p c = false := by
  induction l with
  | nil => simp [List.dropWhile] at h
  | cons a t ih =>
    rw [List.dropWhile_cons] at h
    by_cases hpa : p a = true
    · exact ih (by simpa [hpa] using h)
    · simp [hpa] at h
      subst h
      simpa using hpa

theorem mem_of_mem_trimSpaceList {c : Char} {l : List Char}
    (h : c ∈ trimSpaceList l) : c ∈ l := by
  unfold trimSpaceList at h
  rw [List.mem_reverse] at h
  have h1 := (List.dropWhile_suffix goIsSpace).sublist.subset h
  rw [List.mem_reverse] at h1
  exact (List.dropWhile_suffix goIsSpace).sublist.subset h1

theorem replCommentChar_safe (d c : Char) (h : c ∈ replCommentChar d) :
    c ≠ '\n' ∧ c ≠ '\r' ∧ c ≠ '*' ∧ c ≠ '/' := by
  unfold replCommentChar at h
  by_cases h1 : (d == '\n' || d == '\r') = true
  · rw [if_pos h1] at h
    simp at h
    subst h
    decide
  · rw [if_neg h1] at h
    by_cases h2 : (d == '*' || d == '/') = true
    · rw [if_pos h2] at h
      simp at h
    · rw [if_neg h2] at h
      simp at h
      subst h
      simp only [Bool.or_eq_true, beq_iff_eq, not_or] at h1 h2
      exact ⟨h1.1, h1.2, h2.1, h2.2⟩

/-! ### C2: sanitization -/

/-- C2 counterexample: `sanitize` does not strip the marker-construction
characters.  On the input "<=>" the sanitized body still contains all three of
the characters from which the conflict markers (the `<<<<<<<` opener, the
`=======` separator built in `buildBlock`, and the `trailer`) are made. -/
theorem sanitize_keeps_marker_chars :
    sanitize "<=>" = "<=>" ∧
    '<' ∈ (sanitize "<=>").data ∧
    '=' ∈ (sanitize "<=>").data ∧
    '>' ∈ (sanitize "<=>").data ∧
    '<' ∈ (buildBlock []).headI.data ∧
    '=' ∈ ((buildBlock []).getLastD "").data ∧
    '>' ∈ trailer.data := by decide

/-- C2 amended: for every comment body, `sanitize` replaces each newline and
each carriage return with a single space, removes every `'*'` and `'/'`
(comment-syntax characters, not the marker-construction characters), and trims
leading and trailing whitespace: no newline, carriage return, `'*'` or `'/'`
remains, and the first and last remaining characters are not whitespace. -/
theorem sanitize_single_line_trimmed (s : String) :
    (∀ c ∈ (sanitize s).data, c ≠ '\n' ∧ c ≠ '\r' ∧ c ≠ '*' ∧ c ≠ '/') ∧
    (∀ c, (sanitize s).data.head? = some c → goIsSpace c = false) ∧
    (∀ c, (sanitize s).data.getLast? = some c → goIsSpace c = false) := by
  have hdata : (sanitize s).data = trimSpaceList ((s.data.map replCommentChar).flatten) := rfl
  refine ⟨?_, ?_, ?_⟩
  · intro c hc
    rw [hdata] at hc
    have hmem := mem_of_mem_trimSpaceList hc
    rw [List.mem_flatten] at hmem
    obtain ⟨ll, hll, hcl⟩ := hmem
    rw [List.mem_map] at hll
    obtain ⟨d, _, rfl⟩ := hll
    exact replCommentChar_safe d c hcl
  · intro c hc
    rw [hdata] at hc
    unfold trimSpaceList at hc
    set a := (s.data.map replCommentChar).flatten.dropWhile goIsSpace with ha
    rw [List.head?_reverse] at hc
    have hne : a.reverse.dropWhile goIsSpace ≠ [] := by
      intro hnil
      rw [hnil] at hc
      simp at hc
    obtain ⟨t, ht⟩ := List.dropWhile_suffix (l := a.reverse) goIsSpace
    have : a.reverse.getLast? = some c := by
      rw [← ht, List.getLast?_append_of_ne_nil _ hne, hc]
    rw [List.getLast?_reverse] at this
    exact head?_dropWhile_not goIsSpace _ c this
  · intro c hc
    rw [hdata] at hc
    unfold trimSpaceList at hc
    rw [List.getLast?_reverse] at hc
    exact head?_dropWhile_not goIsSpace _ c hc

/-- C2 amended, witness: the sanitized form of " a\nb* " starts with the
non-whitespace character 'a', and its member 'b' is none of the removed
characters. -/
theorem sanitize_single_line_trimmed_witness :
    goIsSpace 'a' = false ∧ ('b' ≠ '\n' ∧ 'b' ≠ '\r' ∧ 'b' ≠ '*' ∧ 'b' ≠ '/') :=
  ⟨(sanitize_single_line_trimmed " a\nb* ").2.1 'a' (by decide),
   (sanitize_single_line_trimmed " a\nb* ").1 'b' (by decide)⟩

/-! ### C9: sentinel substitution -/

/-- C9 counterexample: a comment whose body is empty does not pass through
verbatim; `main` (line 145) routes the body through `nonEmpty`, so the stored
body is the sentinel "unknown", not the original empty string. -/
theorem empty_body_becomes_unknown :
    (toInfo ⟨7, "alice", "", ⟨2024, 1, 2, 3, 4, 5⟩, some "a.go", some 3⟩).body
        = "unknown" ∧
    (toInfo ⟨7, "alice", "", ⟨2024, 1, 2, 3, 4, 5⟩, some "a.go", some 3⟩).body
        ≠ (⟨7, "alice", "", ⟨2024, 1, 2, 3, 4, 5⟩, some "a.go", some 3⟩ : reviewComment).body := by
  decide

/-- C9 amended: when building a comment record for aggregation, the sentinel
"unknown" is substituted both for an empty author login and for an empty
comment body; a comment with an empty body is therefore rendered with the
sentinel, not as a blank annotation line. -/
theorem sentinel_substitution (c : reviewComment) :
    (toInfo c).user = (if c.userLogin = "" then "unknown" else c.userLogin) ∧
    (toInfo c).body = (if c.body = "" then "unknown" else c.body) :=
  ⟨rfl, rfl⟩

/-! ### C5: block format -/

/-- C5: for a thread whose target line is within bounds, the spliced insertion
consists of exactly the opening marker line stating the comment count, one line
per comment of the form "timestamp author: sanitized body" in the thread's
stored order, the "=======" separator, the original target line, and the
">>>>>>> END REVIEW" end marker. -/
theorem inject_block_format (src : List String) (th : lineThread)
    (h1 : 1 ≤ th.line) (h2 : th.line ≤ (src.length : Int)) :
    injectStep src th =
      src.take (th.line - 1).toNat
        ++ ("<<<<<<< REVIEW THREAD (" ++ toString th.comments.length ++ ")")
          :: th.comments.map
            (fun c => c.created.format ++ " " ++ c.user ++ ": " ++ sanitize c.body)
        ++ ["=======", src.getD (th.line - 1).toNat "", ">>>>>>> END REVIEW"]
        ++ src.drop ((th.line - 1).toNat + 1) := by
  have hneg : ¬(th.line - 1 < 0 ∨ (src.length : Int) ≤ th.line - 1) := by omega
  simp only [injectStep, if_neg hneg, buildBlock, trailer]
  simp

/-- C5 witness at a two-comment thread targeting line 2 of a three-line file. -/
theorem inject_block_format_witness :
    (1 : Int) ≤ 2 ∧ (2 : Int) ≤ ((["a", "b", "c"] : List String).length : Int) ∧
    injectStep ["a", "b", "c"]
        ⟨2, [⟨1, "bob", "hi", ⟨2024, 5, 6, 7, 8, 9⟩⟩,
             ⟨2, "eve", "ok*", ⟨2024, 5, 6, 7, 9, 0⟩⟩]⟩ =
      (["a", "b", "c"] : List String).take ((2 : Int) - 1).toNat
        ++ ("<<<<<<< REVIEW THREAD ("
              ++ toString ([⟨1, "bob", "hi", ⟨2024, 5, 6, 7, 8, 9⟩⟩,
                   ⟨2, "eve", "ok*", ⟨2024, 5, 6, 7, 9, 0⟩⟩] : List commentInfo).length ++ ")")
          :: ([⟨1, "bob", "hi", ⟨2024, 5, 6, 7, 8, 9⟩⟩,
               ⟨2, "eve", "ok*", ⟨2024, 5, 6, 7, 9, 0⟩⟩] : List commentInfo).map
            (fun c => c.created.format ++ " " ++ c.user ++ ": " ++ sanitize c.body)
        ++ ["=======", (["a", "b", "c"] : List String).getD ((2 : Int) - 1).toNat "",
            ">>>>>>> END REVIEW"]
        ++ (["a", "b", "c"] : List String).drop (((2 : Int) - 1).toNat + 1) :=
  ⟨by decide, by decide,
   inject_block_format ["a", "b", "c"]
     ⟨2, [⟨1, "bob", "hi", ⟨2024, 5, 6, 7, 8, 9⟩⟩,
          ⟨2, "eve", "ok*", ⟨2024, 5, 6, 7, 9, 0⟩⟩]⟩ (by decide) (by decide)⟩

/-! ### C6: vanished lines -/

/-- C6: a thread whose zero-based index falls outside the current bounds of
the line sequence causes no insertion, and the loop still processes all
remaining threads; the skip is never fatal (the loop is a total function). -/
theorem vanished_line_skipped (src : List String) (th : lineThread)
    (rest : List lineThread)
    (h : th.line - 1 < 0 ∨ (src.length : Int) ≤ th.line - 1) :
    injectStep src th = src ∧
    injectLoop src (th :: rest) = injectLoop src rest := by
  have h1 : injectStep src th = src := by
    simp only [injectStep]
    rw [if_pos h]
  exact ⟨h1, by rw [injectLoop, h1]⟩

/-- C6 witness matching the spec example: a four-line file and a thread
targeting line 10. -/
theorem vanished_line_skipped_witness :
    ((10 : Int) - 1 < 0 ∨ (((["a", "b", "c", "d"] : List String).length : Int) ≤ 10 - 1)) ∧
    injectStep ["a", "b", "c", "d"] ⟨10, []⟩ = ["a", "b", "c", "d"] ∧
    injectLoop ["a", "b", "c", "d"] [⟨10, []⟩, ⟨2, []⟩] =
      injectLoop ["a", "b", "c", "d"] [⟨2, []⟩] :=
  ⟨by decide,
   (vanished_line_skipped ["a", "b", "c", "d"] ⟨10, []⟩ [⟨2, []⟩] (by decide)).1,
   (vanished_line_skipped ["a", "b", "c", "d"] ⟨10, []⟩ [⟨2, []⟩] (by decide)).2⟩

/-! ### Injection-loop lemmas -/

theorem length_buildBlock (cs : List commentInfo) :
    (buildBlock cs).length = cs.length + 2 := by
  simp [buildBlock]

/-- Decomposition of an in-bounds splice into a prefix and the rest. -/
theorem injectStep_applied (src : List String) (th : lineThread)
    (h1 : 1 ≤ th.line) (h2 : th.line ≤ (src.length : Int)) :
    injectStep src th =
      src.take (th.line - 1).toNat ++
        ((buildBlock th.comments ++ [src.getD (th.line - 1).toNat "", trailer])
          ++ src.drop ((th.line - 1).toNat + 1)) := by
  have hneg : ¬(th.line - 1 < 0 ∨ (src.length : Int) ≤ th.line - 1) := by omega
  simp only [injectStep, if_neg hneg]
  simp [List.append_assoc]

theorem length_injectStep_ge (src : List String) (th : lineThread) :
    src.length ≤ (injectStep src th).length := by
  by_cases h : th.line - 1 < 0 ∨ (src.length : Int) ≤ th.line - 1
  · simp only [injectStep]
    rw [if_pos h]
  · have hi : (th.line - 1).toNat < src.length := by omega
    simp only [injectStep]
    rw [if_neg h]
    simp [List.length_append, List.length_take, List.length_drop, length_buildBlock,
      Nat.min_eq_left hi.le]
    omega

/-- Threads whose target lines lie inside a prefix only edit the prefix. -/
theorem injectLoop_append (ths : List lineThread) (p s : List String)
    (hb : ∀ th ∈ ths, th.line ≤ (p.length : Int)) :
    injectLoop (p ++ s) ths = injectLoop p ths ++ s := by
  induction ths generalizing p with
  | nil => simp [injectLoop]
  | cons th rest ih =>
    have hth : th.line ≤ (p.length : Int) := hb th (List.mem_cons_self th rest)
    have hstep : injectStep (p ++ s) th = injectStep p th ++ s := by
      by_cases hlt : th.line - 1 < 0
      · simp only [injectStep]
        rw [if_pos (Or.inl hlt), if_pos (Or.inl hlt)]
      · have hi : (th.line - 1).toNat < p.length := by omega
        have hneg1 : ¬(th.line - 1 < 0 ∨ (p.length : Int) ≤ th.line - 1) := by omega
        have hneg2 : ¬(th.line - 1 < 0 ∨ ((p ++ s).length : Int) ≤ th.line - 1) := by
          rw [List.length_append]
          push_cast
          omega
        simp only [injectStep, if_neg hneg1, if_neg hneg2]
        rw [List.take_append_of_le_length (by omega),
          List.getD_append _ _ _ _ hi,
          List.drop_append_of_le_length (by omega)]
        simp [List.append_assoc]
    simp only [injectLoop]
    rw [hstep]
    apply ih
    intro t ht
    have h1 := hb t (List.mem_cons_of_mem th ht)
    have h2 : (p.length : Int) ≤ ((injectStep p th).length : Int) := by
      exact_mod_cast length_injectStep_ge p th
    omega

/-- Processing strictly descending, in-bounds threads grows the line count by
`n + 3` per thread of `n` comments. -/
theorem injectLoop_length (ths : List lineThread) (src : List String)
    (hs : List.Pairwise (fun a b => b.line < a.line) ths)
    (hb : ∀ th ∈ ths, 1 ≤ th.line ∧ th.line ≤ (src.length : Int)) :
    (injectLoop src ths).length =
      src.length + (ths.map (fun t => t.comments.length + 3)).sum := by
  induction ths generalizing src with
  | nil => simp [injectLoop]
  | cons th rest ih =>
    obtain ⟨hp1, hp2⟩ := List.pairwise_cons.mp hs
    obtain ⟨h1, h2⟩ := hb th (List.mem_cons_self th rest)
    have hi : (th.line - 1).toNat < src.length := by omega
    have htake : (src.take (th.line - 1).toNat).length = (th.line - 1).toNat := by
      rw [List.length_take, Nat.min_eq_left hi.le]
    have hrest : ∀ t ∈ rest, t.line ≤ ((src.take (th.line - 1).toNat).length : Int) := by
      intro t ht
      rw [htake]
      have := hp1 t ht
      omega
    have hrest2 : ∀ t ∈ rest,
        1 ≤ t.line ∧ t.line ≤ ((src.take (th.line - 1).toNat).length : Int) :=
      fun t ht => ⟨(hb t (List.mem_cons_of_mem th ht)).1, hrest t ht⟩
    simp only [injectLoop]
    rw [injectStep_applied src th h1 h2, injectLoop_append rest _ _ hrest,
      List.length_append, ih _ hp2 hrest2, htake]
    simp [List.length_append, length_buildBlock, List.length_drop]
    omega

/-- Processing strictly descending, in-bounds threads leaves each annotated
original line immediately after its own block and before the trailer. -/
theorem injectLoop_anchor (ths : List lineThread) (src : List String)
    (hs : List.Pairwise (fun a b => b.line < a.line) ths)
    (hb : ∀ th ∈ ths, 1 ≤ th.line ∧ th.line ≤ (src.length : Int)) :
    ∀ th ∈ ths, ∃ pre post,
      injectLoop src ths =
        pre ++ (buildBlock th.comments
          ++ [src.getD (th.line - 1).toNat "", trailer]) ++ post := by
  induction ths generalizing src with
  | nil =>
    intro th h
    simp at h
  | cons t rest ih =>
    intro th hth
    obtain ⟨hp1, hp2⟩ := List.pairwise_cons.mp hs
    obtain ⟨h1, h2⟩ := hb t (List.mem_cons_self t rest)
    have hi : (t.line - 1).toNat < src.length := by omega
    have htake : (src.take (t.line - 1).toNat).length = (t.line - 1).toNat := by
      rw [List.length_take, Nat.min_eq_left hi.le]
    have hrest : ∀ x ∈ rest, x.line ≤ ((src.take (t.line - 1).toNat).length : Int) := by
      intro x hx
      rw [htake]
      have := hp1 x hx
      omega
    simp only [injectLoop]
    rw [injectStep_applied src t h1 h2, injectLoop_append rest _ _ hrest]
    rcases List.mem_cons.mp hth with heq | hmem
    · subst heq
      refine ⟨injectLoop (src.take (th.line - 1).toNat) rest,
        src.drop ((th.line - 1).toNat + 1), ?_⟩
      simp [List.append_assoc]
    · have hrest2 : ∀ x ∈ rest,
          1 ≤ x.line ∧ x.line ≤ ((src.take (t.line - 1).toNat).length : Int) :=
        fun x hx => ⟨(hb x (List.mem_cons_of_mem t hx)).1, hrest x hx⟩
      obtain ⟨pre, post, hpp⟩ := ih _ hp2 hrest2 th hmem
      have hgd : (src.take (t.line - 1).toNat).getD (th.line - 1).toNat "" =
          src.getD (th.line - 1).toNat "" := by
        rw [List.getD_eq_getElem?_getD, List.getD_eq_getElem?_getD, List.getElem?_take,
          if_pos]
        have hlt := hp1 th hmem
        have hge := (hb th (List.mem_cons_of_mem t hmem)).1
        omega
      rw [hgd] at hpp
      refine ⟨pre, post ++ ((buildBlock t.comments
        ++ [src.getD (t.line - 1).toNat "", trailer])
        ++ src.drop ((t.line - 1).toNat + 1)), ?_⟩
      rw [hpp]
      simp [List.append_assoc]

/-- All-vanished processing leaves the sequence untouched. -/
theorem injectLoop_skip_all (ths : List lineThread) (src : List String)
    (h : ∀ th ∈ ths, th.line - 1 < 0 ∨ (src.length : Int) ≤ th.line - 1) :
    injectLoop src ths = src := by
  induction ths with
  | nil => rfl
  | cons th rest ih =>
    have h1 : injectStep src th = src := by
      simp only [injectStep]
      rw [if_pos (h th (List.mem_cons_self th rest))]
    simp only [injectLoop]
    rw [h1]
    exact ih (fun t ht => h t (List.mem_cons_of_mem th ht))

/-! ### Sorting lemmas -/

theorem mem_insertThread {t x : lineThread} {l : List lineThread} :
    x ∈ insertThread t l ↔ x = t ∨ x ∈ l := by
  induction l with
  | nil => simp [insertThread]
  | cons v rest ih =>
    simp only [insertThread]
    by_cases h : v.line < t.line
    · simp [h]
    · simp only [if_neg h, List.mem_cons, ih]
      tauto

theorem mem_sortThreadsDesc {x : lineThread} {l : List lineThread} :
    x ∈ sortThreadsDesc l ↔ x ∈ l := by
  induction l with
  | nil => simp [sortThreadsDesc]
  | cons t rest ih => simp [sortThreadsDesc, mem_insertThread, ih]

theorem pairwise_insertThread {t : lineThread} {l : List lineThread}
    (hl : List.Pairwise (fun a b => b.line < a.line) l)
    (hne : ∀ y ∈ l, t.line ≠ y.line) :
    List.Pairwise (fun a b => b.line < a.line) (insertThread t l) := by
  induction l with
  | nil => simp [insertThread]
  | cons v rest ih =>
    obtain ⟨hv, hrest⟩ := List.pairwise_cons.mp hl
    simp only [insertThread]
    by_cases h : v.line < t.line
    · rw [if_pos h]
      refine List.pairwise_cons.mpr ⟨?_, hl⟩
      intro y hy
      rcases List.mem_cons.mp hy with rfl | hy'
      · exact h
      · exact lt_trans (hv y hy') h
    · rw [if_neg h]
      have htv : t.line < v.line := by
        have := hne v (List.mem_cons_self v rest)
        omega
      refine List.pairwise_cons.mpr
        ⟨?_, ih hrest (fun y hy => hne y (List.mem_cons_of_mem v hy))⟩
      intro y hy
      rcases mem_insertThread.mp hy with rfl | hy'
      · exact htv
      · exact hv y hy'

theorem pairwise_sortThreadsDesc {l : List lineThread}
    (h : List.Pairwise (fun a b => a.line ≠ b.line) l) :
    List.Pairwise (fun a b => b.line < a.line) (sortThreadsDesc l) := by
  induction l with
  | nil => simp [sortThreadsDesc]
  | cons t rest ih =>
    obtain ⟨h1, h2⟩ := List.pairwise_cons.mp h
    exact pairwise_insertThread (ih h2) (fun y hy => h1 y (mem_sortThreadsDesc.mp hy))

/-! ### C1: descending processing order keeps anchors stable -/

/-- C1: for a file's threads (distinct target lines, all within the original
file), the descending sort used by `main` yields a strictly descending
processing order, and after the whole injection loop every annotated line's
original content appears, unchanged, immediately after its own annotation
block and before the trailing end marker — no matter how many lines were
inserted for higher-numbered lines of the same file. -/
theorem descending_order_keeps_anchors (src : List String) (ths : List lineThread)
    (hnd : List.Pairwise (fun a b => a.line ≠ b.line) ths)
    (hb : ∀ th ∈ ths, 1 ≤ th.line ∧ th.line ≤ (src.length : Int)) :
    List.Pairwise (fun a b => b.line < a.line) (sortThreadsDesc ths) ∧
    ∀ th ∈ ths, ∃ pre post,
      injectLoop src (sortThreadsDesc ths) =
        pre ++ (buildBlock th.comments
          ++ [src.getD (th.line - 1).toNat "", trailer]) ++ post := by
  have hp := pairwise_sortThreadsDesc hnd
  refine ⟨hp, fun th hth => ?_⟩
  exact injectLoop_anchor (sortThreadsDesc ths) src hp
    (fun t ht => hb t (mem_sortThreadsDesc.mp ht)) th (mem_sortThreadsDesc.mpr hth)

/-- C1 witness: the spec's example of threads at lines 2, 5 and 8 of an
eight-line file, supplied in ascending order. -/
theorem descending_order_keeps_anchors_witness :
    List.Pairwise (fun a b : lineThread => a.line ≠ b.line)
      [⟨2, [⟨1, "u", "x", ⟨2024, 1, 1, 0, 0, 0⟩⟩]⟩,
       ⟨5, [⟨2, "v", "y", ⟨2024, 1, 1, 0, 0, 1⟩⟩]⟩,
       ⟨8, [⟨3, "w", "z", ⟨2024, 1, 1, 0, 0, 2⟩⟩]⟩] ∧
    (∀ th ∈ ([⟨2, [⟨1, "u", "x", ⟨2024, 1, 1, 0, 0, 0⟩⟩]⟩,
       ⟨5, [⟨2, "v", "y", ⟨2024, 1, 1, 0, 0, 1⟩⟩]⟩,
       ⟨8, [⟨3, "w", "z", ⟨2024, 1, 1, 0, 0, 2⟩⟩]⟩] : List lineThread),
      1 ≤ th.line ∧
        th.line ≤ ((["l1", "l2", "l3", "l4", "l5", "l6", "l7", "l8"] : List String).length : Int)) ∧
    (List.Pairwise (fun a b => b.line < a.line)
      (sortThreadsDesc [⟨2, [⟨1, "u", "x", ⟨2024, 1, 1, 0, 0, 0⟩⟩]⟩,
        ⟨5, [⟨2, "v", "y", ⟨2024, 1, 1, 0, 0, 1⟩⟩]⟩,
        ⟨8, [⟨3, "w", "z", ⟨2024, 1, 1, 0, 0, 2⟩⟩]⟩]) ∧
    ∀ th ∈ ([⟨2, [⟨1, "u", "x", ⟨2024, 1, 1, 0, 0, 0⟩⟩]⟩,
       ⟨5, [⟨2, "v", "y", ⟨2024, 1, 1, 0, 0, 1⟩⟩]⟩,
       ⟨8, [⟨3, "w", "z", ⟨2024, 1, 1, 0, 0, 2⟩⟩]⟩] : List lineThread),
      ∃ pre post,
        injectLoop ["l1", "l2", "l3", "l4", "l5", "l6", "l7", "l8"]
            (sortThreadsDesc [⟨2, [⟨1, "u", "x", ⟨2024, 1, 1, 0, 0, 0⟩⟩]⟩,
              ⟨5, [⟨2, "v", "y", ⟨2024, 1, 1, 0, 0, 1⟩⟩]⟩,
              ⟨8, [⟨3, "w", "z", ⟨2024, 1, 1, 0, 0, 2⟩⟩]⟩]) =
          pre ++ (buildBlock th.comments
            ++ [(["l1", "l2", "l3", "l4", "l5", "l6", "l7", "l8"] : List String).getD
                  (th.line - 1).toNat "", trailer]) ++ post) :=
  ⟨by decide, by decide,
   descending_order_keeps_anchors ["l1", "l2", "l3", "l4", "l5", "l6", "l7", "l8"]
     [⟨2, [⟨1, "u", "x", ⟨2024, 1, 1, 0, 0, 0⟩⟩]⟩,
      ⟨5, [⟨2, "v", "y", ⟨2024, 1, 1, 0, 0, 1⟩⟩]⟩,
      ⟨8, [⟨3, "w", "z", ⟨2024, 1, 1, 0, 0, 2⟩⟩]⟩] (by decide) (by decide)⟩

/-! ### C7: dry-run purity -/

/-- C7: in dry-run mode the injector writes nothing, and the rendered output's
line count equals the original file's line count plus, for each applied thread
of n comments, n + 3 extra lines. -/
theorem dry_run_pure_and_counts (content : String) (ths : List lineThread)
    (hs : List.Pairwise (fun a b => b.line < a.line) ths)
    (hb : ∀ th ∈ ths, 1 ≤ th.line ∧ th.line ≤ ((scanLines content).length : Int)) :
    (injectThreads content ths true).2 = none ∧
    (renderDry (injectThreads content ths true).1).length =
      (scanLines content).length + (ths.map (fun t => t.comments.length + 3)).sum := by
  refine ⟨rfl, ?_⟩
  have h1 : (injectThreads content ths true).1 = injectLoop (scanLines content) ths := rfl
  have h2 : ∀ l : List String, (renderDry l).length = l.length := by
    intro l
    simp [renderDry]
  rw [h1, h2, injectLoop_length ths _ hs hb]

/-- C7 witness: a five-line file with threads at lines 4 (one comment) and 2
(two comments). -/
theorem dry_run_pure_and_counts_witness :
    List.Pairwise (fun a b : lineThread => b.line < a.line)
      [⟨4, [⟨1, "u", "x", ⟨2024, 1, 1, 0, 0, 0⟩⟩]⟩,
       ⟨2, [⟨2, "v", "y", ⟨2024, 1, 1, 0, 0, 1⟩⟩, ⟨3, "w", "z", ⟨2024, 1, 1, 0, 0, 2⟩⟩]⟩] ∧
    (∀ th ∈ ([⟨4, [⟨1, "u", "x", ⟨2024, 1, 1, 0, 0, 0⟩⟩]⟩,
       ⟨2, [⟨2, "v", "y", ⟨2024, 1, 1, 0, 0, 1⟩⟩,
            ⟨3, "w", "z", ⟨2024, 1, 1, 0, 0, 2⟩⟩]⟩] : List lineThread),
      1 ≤ th.line ∧ th.line ≤ ((scanLines "l1\nl2\nl3\nl4\nl5\n").length : Int)) ∧
    ((injectThreads "l1\nl2\nl3\nl4\nl5\n"
        [⟨4, [⟨1, "u", "x", ⟨2024, 1, 1, 0, 0, 0⟩⟩]⟩,
         ⟨2, [⟨2, "v", "y", ⟨2024, 1, 1, 0, 0, 1⟩⟩,
              ⟨3, "w", "z", ⟨2024, 1, 1, 0, 0, 2⟩⟩]⟩] true).2 = none ∧
     (renderDry (injectThreads "l1\nl2\nl3\nl4\nl5\n"
        [⟨4, [⟨1, "u", "x", ⟨2024, 1, 1, 0, 0, 0⟩⟩]⟩,
         ⟨2, [⟨2, "v", "y", ⟨2024, 1, 1, 0, 0, 1⟩⟩,
              ⟨3, "w", "z", ⟨2024, 1, 1, 0, 0, 2⟩⟩]⟩] true).1).length =
      (scanLines "l1\nl2\nl3\nl4\nl5\n").length +
        (([⟨4, [⟨1, "u", "x", ⟨2024, 1, 1, 0, 0, 0⟩⟩]⟩,
           ⟨2, [⟨2, "v", "y", ⟨2024, 1, 1, 0, 0, 1⟩⟩,
                ⟨3, "w", "z", ⟨2024, 1, 1, 0, 0, 2⟩⟩]⟩] : List lineThread).map
          (fun t => t.comments.length + 3)).sum) :=
  ⟨by decide, by decide,
   dry_run_pure_and_counts "l1\nl2\nl3\nl4\nl5\n"
     [⟨4, [⟨1, "u", "x", ⟨2024, 1, 1, 0, 0, 0⟩⟩]⟩,
      ⟨2, [⟨2, "v", "y", ⟨2024, 1, 1, 0, 0, 1⟩⟩,
           ⟨3, "w", "z", ⟨2024, 1, 1, 0, 0, 2⟩⟩]⟩] (by decide) (by decide)⟩

/-! ### C10: non-dry mode always rewrites and normalizes -/

/-- C10: in non-dry-run mode the injector always writes the scanned lines
joined by a newline plus a final newline — even when every thread was skipped
as vanished — so the written bytes need not equal the original: CRLF endings
become LF, a missing final newline is added, and an empty file becomes a
single newline. -/
theorem write_normalizes_content (content : String) (ths : List lineThread)
    (h : ∀ th ∈ ths, th.line - 1 < 0 ∨ ((scanLines content).length : Int) ≤ th.line - 1) :
    (injectThreads content ths false).2 = some (unlines (scanLines content)) ∧
    unlines (scanLines "a\r\nb") = "a\nb\n" ∧
    unlines (scanLines "a\nb") = "a\nb\n" ∧
    unlines (scanLines "") = "\n" ∧
    unlines (scanLines "a\r\nb") ≠ "a\r\nb" := by
  refine ⟨?_, by decide, by decide, by decide, by decide⟩
  simp [injectThreads, injectLoop_skip_all ths _ h]

/-- C10 witness: a CRLF file whose only thread targets a vanished line 10. -/
theorem write_normalizes_content_witness :
    (∀ th ∈ ([⟨10, []⟩] : List lineThread),
      th.line - 1 < 0 ∨ ((scanLines "x\r\ny").length : Int) ≤ th.line - 1) ∧
    ((injectThreads "x\r\ny" [⟨10, []⟩] false).2 = some (unlines (scanLines "x\r\ny")) ∧
     unlines (scanLines "a\r\nb") = "a\nb\n" ∧
     unlines (scanLines "a\nb") = "a\nb\n" ∧
     unlines (scanLines "") = "\n" ∧
     unlines (scanLines "a\r\nb") ≠ "a\r\nb") :=
  ⟨by decide, write_normalizes_content "x\r\ny" [⟨10, []⟩] (by decide)⟩

/-! ### Aggregator lemmas -/

theorem lookupThread_addComment (m : List ((String × Int) × List commentInfo))
    (k q : String × Int) (ci : commentInfo) :
    lookupThread (addComment m k ci) q =
      if k = q then
        match lookupThread m q with
        | some cs => some (cs ++ [ci])
        | none => some [ci]
      else lookupThread m q := by
  induction m with
  | nil =>
    by_cases h : k = q <;> simp [addComment, lookupThread, h]
  | cons hd rest ih =>
    obtain ⟨j, cs⟩ := hd
    by_cases hjk : j = k
    · subst hjk
      by_cases hq : j = q <;> simp [addComment, lookupThread, hq]
    · by_cases hq : j = q
      · subst hq
        have hkq : ¬(k = j) := fun h => hjk h.symm
        simp [addComment, lookupThread, hjk, hkq]
      · simp [addComment, lookupThread, hjk, hq, ih]

/-- The running content of one `(p, l)` bucket through the aggregation fold:
starting from map `m`, the bucket ends as its old content extended with the
surviving comments keyed `(p, l)`, in input order. -/
theorem lookupThread_foldl (u : List Int) (comments : List reviewComment)
    (m : List ((String × Int) × List commentInfo)) (p : String) (l : Int) :
    lookupThread (comments.foldl (aggStep u) m) (p, l) =
      match lookupThread m (p, l) with
      | some cs => some (cs ++ (comments.filter
          (fun c => decide (c.path = some p ∧ c.line = some l ∧ c.id ∈ u))).map toInfo)
      | none =>
        if (comments.filter
            (fun c => decide (c.path = some p ∧ c.line = some l ∧ c.id ∈ u))) = []
        then none
        else some ((comments.filter
          (fun c => decide (c.path = some p ∧ c.line = some l ∧ c.id ∈ u))).map toInfo) := by
  induction comments generalizing m with
  | nil =>
    simp only [List.foldl_nil, List.filter_nil, List.map_nil, List.append_nil]
    cases lookupThread m (p, l) <;> simp
  | cons c rest ih =>
    rw [List.foldl_cons]
    by_cases hc : c.path = some p ∧ c.line = some l ∧ c.id ∈ u
    · obtain ⟨hp, hl, hid⟩ := hc
      have hstep : aggStep u m c = addComment m (p, l) (toInfo c) := by
        unfold aggStep
        rw [hp, hl]
        simp [hid]
      rw [hstep, ih, lookupThread_addComment, if_pos rfl,
        List.filter_cons_of_pos (by simp [hp, hl, hid])]
      cases hm : lookupThread m (p, l) <;> simp
    · have hfil : (c :: rest).filter
            (fun c => decide (c.path = some p ∧ c.line = some l ∧ c.id ∈ u)) =
          rest.filter
            (fun c => decide (c.path = some p ∧ c.line = some l ∧ c.id ∈ u)) := by
        rw [List.filter_cons_of_neg (by simpa using hc)]
      have hlook : lookupThread (aggStep u m c) (p, l) = lookupThread m (p, l) := by
        unfold aggStep
        rcases hpath : c.path with _ | p'
        · rfl
        · rcases hline : c.line with _ | l'
          · rfl
          · dsimp only
            by_cases hid : c.id ∈ u
            · rw [if_pos hid, lookupThread_addComment, if_neg]
              intro hkey
              apply hc
              have hp' : p' = p := congrArg Prod.fst hkey
              have hl' : l' = l := congrArg Prod.snd hkey
              exact ⟨by rw [hpath, hp'], by rw [hline, hl'], hid⟩
            · rw [if_neg hid]
      rw [ih, hlook, hfil]

/-! ### C3: aggregator filtering -/

/-- C3: the bucket the Aggregator produces for any `(path, line)` key is
exactly the input comments whose path equals that path, whose line equals
that line, and whose identifier belongs to the unresolved set, in input
order — so a comment appears in the output iff its path and line are present
and its id is unresolved, and every surviving comment lands in exactly the
thread keyed by its own `(path, line)` pair. -/
theorem aggregator_bucket_eq_filter (comments : List reviewComment) (u : List Int)
    (p : String) (l : Int) :
    lookupThread (fileThreads comments u) (p, l) =
      if (comments.filter
          (fun c => decide (c.path = some p ∧ c.line = some l ∧ c.id ∈ u))) = []
      then none
      else some ((comments.filter
        (fun c => decide (c.path = some p ∧ c.line = some l ∧ c.id ∈ u))).map toInfo) := by
  have h := lookupThread_foldl u comments [] p l
  simpa [fileThreads, lookupThread] using h

/-! ### C8: invariant of the threads handed to the injector -/

theorem mem_addComment {m : List ((String × Int) × List commentInfo)}
    {k : String × Int} {ci : commentInfo}
    {e : (String × Int) × List commentInfo} (he : e ∈ addComment m k ci) :
    e ∈ m ∨ e = (k, [ci]) ∨ ∃ j cs, (j, cs) ∈ m ∧ e = (j, cs ++ [ci]) := by
  induction m with
  | nil =>
    simp [addComment] at he
    exact Or.inr (Or.inl he)
  | cons hd rest ih =>
    obtain ⟨j, cs⟩ := hd
    by_cases hk : j = k
    · rw [addComment, if_pos hk] at he
      rcases List.mem_cons.mp he with rfl | hrest
      · exact Or.inr (Or.inr ⟨j, cs, List.mem_cons_self _ _, rfl⟩)
      · exact Or.inl (List.mem_cons_of_mem _ hrest)
    · rw [addComment, if_neg hk] at he
      rcases List.mem_cons.mp he with rfl | hrest
      · exact Or.inl (List.mem_cons_self _ _)
      · rcases ih hrest with h | h | ⟨j', cs', hj', rfl⟩
        · exact Or.inl (List.mem_cons_of_mem _ h)
        · exact Or.inr (Or.inl h)
        · exact Or.inr (Or.inr ⟨j', cs', List.mem_cons_of_mem _ hj', rfl⟩)

/-- Every bucket built by the aggregation fold is non-empty and holds only
comments whose id is in the unresolved set. -/
theorem foldl_aggStep_inv (u : List Int) (comments : List reviewComment) :
    ∀ m, (∀ e ∈ m, e.2 ≠ [] ∧ ∀ ci ∈ e.2, ci.id ∈ u) →
      ∀ e ∈ comments.foldl (aggStep u) m, e.2 ≠ [] ∧ ∀ ci ∈ e.2, ci.id ∈ u := by
  induction comments with
  | nil => exact fun m hm => hm
  | cons c rest ih =>
    intro m hm
    rw [List.foldl_cons]
    apply ih
    intro e he
    unfold aggStep at he
    rcases hpath : c.path with _ | p'
    · rw [hpath] at he
      exact hm e he
    · rcases hline : c.line with _ | l'
      · rw [hpath, hline] at he
        exact hm e he
      · rw [hpath, hline] at he
        dsimp only at he
        by_cases hid : c.id ∈ u
        · rw [if_pos hid] at he
          rcases mem_addComment he with h | h | ⟨j, cs, hj, rfl⟩
          · exact hm e h
          · subst h
            refine ⟨by simp, ?_⟩
            intro ci hci
            rw [List.mem_singleton] at hci
            subst hci
            exact hid
          · obtain ⟨hne, hin⟩ := hm (j, cs) hj
            refine ⟨by simp, ?_⟩
            intro ci hci
            rcases List.mem_append.mp hci with h' | h'
            · exact hin ci h'
            · rw [List.mem_singleton] at h'
              subst h'
              exact hid
        · rw [if_neg hid] at he
          exact hm e he

theorem mem_insertComment {c x : commentInfo} {l : List commentInfo} :
    x ∈ insertComment c l ↔ x = c ∨ x ∈ l := by
  induction l with
  | nil => simp [insertComment]
  | cons d rest ih =>
    simp only [insertComment]
    by_cases h : c.created.before d.created = true
    · simp [h]
    · simp only [if_neg h, List.mem_cons, ih]
      tauto

theorem mem_sortComments {x : commentInfo} {l : List commentInfo} :
    x ∈ sortComments l ↔ x ∈ l := by
  induction l with
  | nil => simp [sortComments]
  | cons c rest ih => simp [sortComments, mem_insertComment, ih]

theorem insertComment_ne_nil (c : commentInfo) (l : List commentInfo) :
    insertComment c l ≠ [] := by
  cases l with
  | nil => simp [insertComment]
  | cons d rest =>
    simp only [insertComment]
    by_cases h : c.created.before d.created = true
    · simp [h]
    · simp [h]

theorem sortComments_eq_nil {l : List commentInfo} :
    sortComments l = [] ↔ l = [] := by
  cases l with
  | nil => simp [sortComments]
  | cons c rest =>
    simp only [sortComments]
    constructor
    · intro h
      exact absurd h (insertComment_ne_nil c (sortComments rest))
    · intro h
      exact absurd h (by simp)

/-- C8: every `lineThread` that `main` hands to the injector for a file
contains at least one comment, and every comment in it has an identifier that
belongs to the unresolved identifier set. -/
theorem injector_input_invariant (comments : List reviewComment) (u : List Int)
    (p : String) (th : lineThread)
    (hth : th ∈ threadsFor (fileThreads comments u) p) :
    th.comments ≠ [] ∧ ∀ ci ∈ th.comments, ci.id ∈ u := by
  unfold threadsFor at hth
  rw [mem_sortThreadsDesc] at hth
  rw [List.mem_map] at hth
  obtain ⟨e, he, rfl⟩ := hth
  have he' : e ∈ fileThreads comments u := (List.mem_filter.mp he).1
  have hinv := foldl_aggStep_inv u comments [] (by simp) e he'
  constructor
  · intro hnil
    exact hinv.1 (sortComments_eq_nil.mp hnil)
  · intro ci hci
    exact hinv.2 ci (mem_sortComments.mp hci)

/-- C8 witness: one unresolved, anchored comment; the derived thread at
("a.go", 3) is non-empty and carries only unresolved ids. -/
theorem injector_input_invariant_witness :
    ((⟨3, [⟨5, "alice", "hi", ⟨2024, 1, 1, 0, 0, 0⟩⟩]⟩ : lineThread) ∈
      threadsFor (fileThreads
        [⟨5, "alice", "hi", ⟨2024, 1, 1, 0, 0, 0⟩, some "a.go", some 3⟩] [5]) "a.go") ∧
    ((⟨3, [⟨5, "alice", "hi", ⟨2024, 1, 1, 0, 0, 0⟩⟩]⟩ : lineThread).comments ≠ [] ∧
     ∀ ci ∈ (⟨3, [⟨5, "alice", "hi", ⟨2024, 1, 1, 0, 0, 0⟩⟩]⟩ : lineThread).comments,
       ci.id ∈ ([5] : List Int)) :=
  ⟨by decide,
   injector_input_invariant
     [⟨5, "alice", "hi", ⟨2024, 1, 1, 0, 0, 0⟩, some "a.go", some 3⟩] [5] "a.go"
     ⟨3, [⟨5, "alice", "hi", ⟨2024, 1, 1, 0, 0, 0⟩⟩]⟩ (by decide)⟩

end Prconflict

